import Mathlib

/-!
Shallow embedding of the extraction and scoring engine of `src/scraper.py`
(a Wikipedia polling-page scraper), together with theorems checking its
natural-language specification against the code.

Modelling conventions:
* Python strings are Lean `String`s.  The Python string operations the code
  uses (`in`, `.lower()`, `.strip()`, `sep.join`, `.startswith`) are given
  character-list based definitions (`pyIn`, `pyLower`, `pyStrip`, `pyJoin`,
  `pyStartsWith`) so that every definition reduces by structural recursion.
* A pandas cell is either missing (`NaN`) or a value carried as its display
  string (`str(value)`).  A parsed table (`DataFrame`) is a header — one
  level or a `MultiIndex` of level tuples, each label as its `str` form —
  plus a list of rows of cells.  `pd.read_html` is an external library
  call, so `extract_table` takes its output (the candidate list) directly.
* The BeautifulSoup fragments that `extract_graph` queries are modelled as
  what the CSS selectors return, in document order: the list of containers
  from `soup.select("figure, div.thumb, .thumbinner")` (each an optional
  `img` with optional `src`/`alt` attributes, and an optional caption
  element carrying its text), and the list of images from
  `soup.select("#mw-content-text img")`.
* `urllib.parse.urljoin` is an external library function; it is passed to
  `extract_graph` as an explicit function parameter `uj`.
* `urlparse(url).path` is likewise external: `sanitize_filename_from_url`
  is modelled on the URL path component it extracts its name from, and
  `pathlib.Path(path).name` is modelled as the final path component.
* Python `dict` construction (used by `DataFrame.to_dict(orient="records")`,
  which builds `dict(zip(columns, row))`) is modelled by `pyDict`: an
  association list built in insertion order, where inserting an existing
  key overwrites the value in place (first-occurrence position, last value
  wins) — exactly CPython's dict semantics.
* Python `list.sort(key=..., reverse=True)` is stable (Timsort); it is
  modelled by the stable descending insertion sort `sortDesc`.
* Python `max(xs, key=f)` keeps the current best and replaces it only on a
  strictly greater key, so the first maximum wins; it is modelled by
  `pyMax`.
-/

/-- Whether `n` occurs as a contiguous block of `l` (auxiliary for `pyIn`). -/
def infixAux (n : List Char) : List Char → Bool
  | [] => n.isPrefixOf []
  | c :: cs => n.isPrefixOf (c :: cs) || infixAux n cs

/-- Python `needle in hay` on strings: substring containment. -/
def pyIn (needle hay : String) : Bool :=
  infixAux needle.data hay.data

/-- Python `s.lower()` (ASCII case folding, which is all the code relies on). -/
def pyLower (s : String) : String :=
  ⟨s.data.map Char.toLower⟩

/-- Python `s.strip()`: remove leading and trailing whitespace. -/
def pyStrip (s : String) : String :=
  ⟨((s.data.dropWhile Char.isWhitespace).reverse.dropWhile Char.isWhitespace).reverse⟩

/-- Python `sep.join(parts)`. -/
def pyJoin (sep : String) : List String → String
  | [] => ""
  | [x] => x
  | x :: y :: xs => x ++ sep ++ pyJoin sep (y :: xs)

/-- Python `s.startswith(pre)`. -/
def pyStartsWith (s pre : String) : Bool :=
  pre.data.isPrefixOf s.data

/-- A pandas cell: either missing (`NaN`) or a value carried as its Python
display string (`str(value)`). -/
inductive Cell where
  | na : Cell
  | val : String → Cell
deriving DecidableEq

/-- `pd.isna` on a single cell. -/
def isna : Cell → Bool
  | .na => true
  | .val _ => false

/-- Python `str(cell)`; a `NaN` cell renders as `"nan"`. -/
def pyStr : Cell → String
  | .na => "nan"
  | .val s => s

/-- One cell of `df.fillna("")`: missing cells become the empty string. -/
def fillna : Cell → Cell
  | .na => .val ""
  | .val s => .val s

/-- `df.columns`: either a flat header or a `pd.MultiIndex` (a tuple of
level labels per column); every label is kept as its `str` form. -/
inductive Columns where
  | single : List String → Columns
  | multi : List (List String) → Columns
deriving DecidableEq

/-- A parsed table as produced by `pd.read_html`: header plus rows. -/
structure DataFrame where
  columns : Columns
  rows : List (List Cell)
deriving DecidableEq

/-- Number of columns of a header. -/
def colCount : Columns → Nat
  | .single cs => cs.length
  | .multi tups => tups.length

/-- `scraper.py` lines 103-110, the multi-index branch body: keep the
non-empty, non-`"nan"` level strings of one column tuple, trimmed, joined
by `" | "`; substitute `"column"` when none survive. -/
def flattenTuple (tup : List String) : String :=
  let parts := (tup.filter (fun x => (pyStrip x != "") && (x != "nan"))).map pyStrip
  if parts.isEmpty then "column" else pyJoin " | " parts

/-- `scraper.py` lines 103-110: `flatten_columns`. -/
def flatten_columns : Columns → List String
  | .multi tups => tups.map flattenTuple
  | .single cols => cols.map pyStrip

/-- `scraper.py` lines 58-69: `score_graph_candidate`. -/
def score_graph_candidate (text : String) : Nat :=
  let t := pyLower text
  let score := 0
  let score := if pyIn "opinion" t then score + 2 else score
  let score := if pyIn "poll" t then score + 3 else score
  let score := if pyIn "graph" t || pyIn "chart" t then score + 1 else score
  let score := if pyIn "next united kingdom" t || pyIn "general election" t then score + 2 else score
  score

/-- The lower-cased `" "`-join of the flattened header labels (the local
variable `columns` of `score_table`). -/
def headerStr (df : DataFrame) : String :=
  pyLower (pyJoin " " (flatten_columns df.columns))

/-- `scraper.py` lines 113-124: `score_table`. -/
def score_table (df : DataFrame) : Nat :=
  let columns := headerStr df
  let score := 0
  let score := List.foldl (fun s token => if pyIn token columns then s + 2 else s) score
    ["poll", "pollster", "date", "fieldwork"]
  let score := List.foldl (fun s token => if pyIn token columns then s + 1 else s) score
    ["con", "conservative", "lab", "labour", "ld", "lib dem", "reform"]
  let score := if df.rows.length ≥ 5 then score + 1 else score
  score

/-- Python `max(x :: xs, key)`: fold keeping the current best, replaced
only when the key is strictly greater (so the first maximum wins). -/
def pyMax {α : Type} (key : α → Nat) : α → List α → α
  | x, [] => x
  | x, y :: ys => pyMax key (if key x < key y then y else x) ys

/-- `scraper.py` lines 127-137: `extract_table`, taking the output of the
external `pd.read_html` call as its candidate list.  Both failures are
`ValueError`s in the source, distinguished by their message strings, so
the error type is the message. -/
def extract_table (tables : List DataFrame) : Except String (String × DataFrame) :=
  match tables with
  | [] => .error "No tables found on page"
  | t :: ts =>
    let best_df := pyMax score_table t ts
    if score_table best_df < 4 then .error "Could not confidently identify polling table"
    else .ok ("Wikipedia polling table (auto-detected)", best_df)

/-- An `<img>` element: its `src` and `alt` attributes (absent = `none`). -/
structure Img where
  src : Option String
  alt : Option String
deriving DecidableEq

/-- One container matched by `soup.select("figure, div.thumb, .thumbinner")`:
its first `<img>` (if any) and the text of its caption element (if any). -/
structure Container where
  img : Option Img
  caption : Option String
deriving DecidableEq

/-- The parts of the parsed page that `extract_graph` reads, in document
order. -/
structure GraphDoc where
  containers : List Container
  contentImgs : List Img
deriving DecidableEq

/-- `scraper.py` lines 52-55: `normalize_img_url`. -/
def normalize_img_url (src : String) : String :=
  if pyStartsWith src "//" then "https:" ++ src else src

/-- A scored image candidate as appended by `extract_graph`:
`(score, urljoin(page_url, src), caption or None)`. -/
abbrev Cand := Nat × String × Option String

/-- `scraper.py` lines 75-87, one loop iteration of `extract_graph`'s
primary pass: `none` when the container is skipped (`continue`), and the
appended candidate triple otherwise. -/
def candOf (uj : String → String → String) (page_url : String) (c : Container) : Option Cand :=
  match c.img with
  | none => none
  | some img =>
    match img.src with
    | none => none
    | some src =>
      if src = "" then none
      else
        let alt_text := img.alt.getD ""
        let caption := c.caption.getD ""
        let context := pyStrip (alt_text ++ " " ++ caption)
        let score := score_graph_candidate context
        if score ≤ 0 then none
        else some (score, uj page_url (normalize_img_url src), if caption = "" then none else some caption)

/-- `scraper.py` lines 92-93, the fallback-loop condition: alt text
mentions `"poll"` (case-insensitively) and `src` is truthy. -/
def fallbackPred (img : Img) : Bool :=
  pyIn "poll" (pyLower (img.alt.getD "")) && (img.src.getD "" != "")

/-- Insert into a list already sorted by strictly descending score,
placing the new element before the first entry whose score is not larger:
the insertion step of a stable descending sort. -/
def insertDesc (x : Cand) : List Cand → List Cand
  | [] => [x]
  | y :: ys => if x.1 < y.1 then y :: insertDesc x ys else x :: y :: ys

/-- `candidates.sort(key=lambda item: item[0], reverse=True)`: Python's
sort is stable, modelled as a stable descending insertion sort. -/
def sortDesc (l : List Cand) : List Cand :=
  l.foldr insertDesc []

/-- `scraper.py` lines 98-100: sort the candidates by score descending and
return the first one. -/
def selectPrimary (cands : List Cand) : Option String × Option String :=
  match sortDesc cands with
  | [] => (none, none)
  | best :: _ => (some best.2.1, best.2.2)

/-- `scraper.py` lines 72-100: `extract_graph`.  `uj` is
`urllib.parse.urljoin`. -/
def extract_graph (uj : String → String → String) (doc : GraphDoc) (page_url : String) :
    Option String × Option String :=
  let candidates := doc.containers.filterMap (candOf uj page_url)
  if candidates.isEmpty then
    match doc.contentImgs.find? fallbackPred with
    | some img => (some (uj page_url (normalize_img_url (img.src.getD ""))), img.alt)
    | none => (none, none)
  else selectPrimary candidates

/-- Membership in the character class `[A-Za-z0-9._-]` of the sanitizer's
regular expression. -/
def allowedChar (c : Char) : Bool :=
  ('A' ≤ c && c ≤ 'Z') || ('a' ≤ c && c ≤ 'z') || ('0' ≤ c && c ≤ '9') ||
    (c == '.') || (c == '_') || (c == '-')

/-- `re.sub(r"[^A-Za-z0-9._-]+", "_", ·)` on a character list: each maximal
run of disallowed characters becomes one underscore.  The boolean records
whether the previous character was part of a disallowed run. -/
def subRuns : Bool → List Char → List Char
  | _, [] => []
  | prevBad, c :: cs =>
    if allowedChar c then c :: subRuns false cs
    else if prevBad then subRuns true cs
    else '_' :: subRuns true cs

/-- Split a character list at `'/'` (auxiliary for the path-name model). -/
def segsAux (cur : List Char) : List Char → List (List Char)
  | [] => [cur.reverse]
  | c :: cs => if c = '/' then cur.reverse :: segsAux [] cs else segsAux (c :: cur) cs

/-- `pathlib.Path(path).name`: the final path component, or `""` when there
is none (empty and `"."` segments are not components). -/
def pathName (path : String) : String :=
  let segs := (segsAux [] path.data).filter (fun seg => (seg != []) && (seg != ['.']))
  ⟨(segs.getLast?).getD []⟩

/-- `scraper.py` lines 140-146: `sanitize_filename_from_url`, modelled on
the URL path component that `urlparse` extracts. -/
def sanitize_filename_from_url (path : String) : String :=
  let name0 := pathName path
  let name1 := if name0 = "" then "graph" else name0
  let name2 : String := ⟨subRuns false name1.data⟩
  if name2.data.contains '.' then name2 else name2 ++ ".img"

/-- Modelled from the spec: the literal per-character reading of claim C6,
"replaces any character outside `[A-Za-z0-9._-]` with `_`" — one
underscore per disallowed character.  Kept for comparison with the source
function. -/
def perCharSanitize (path : String) : String :=
  let name0 := pathName path
  let name1 := if name0 = "" then "graph" else name0
  let name2 : String := ⟨name1.data.map (fun c => if allowedChar c then c else '_')⟩
  if name2.data.contains '.' then name2 else name2 ++ ".img"

/-- `(l.dropWhile p).length ≤ l.length`. -/
theorem dropWhileLenLe {β : Type} (p : β → Bool) : ∀ l : List β, (l.dropWhile p).length ≤ l.length
  | [] => Nat.le_refl _
  | x :: xs => by
    rw [List.dropWhile_cons]
    split
    · exact Nat.le_succ_of_le (dropWhileLenLe p xs)
    · exact Nat.le_refl _

/-- Modelled from the spec: the amended reading of claim C6 — each maximal
run of characters outside `[A-Za-z0-9._-]` is replaced by a single
underscore, written directly as "emit one `_`, then skip the rest of the
disallowed run". -/
def collapseRuns : List Char → List Char
  | [] => []
  | c :: cs =>
    if allowedChar c then c :: collapseRuns cs
    else '_' :: collapseRuns (cs.dropWhile (fun d => !allowedChar d))
termination_by l => l.length
decreasing_by
  all_goals
    simp only [List.length_cons]
    have h := dropWhileLenLe (fun d => !allowedChar d) cs
    omega

/-- Modelled from the spec: the sanitizer under the amended reading of
claim C6, for comparison with `sanitize_filename_from_url`. -/
def runCollapseSanitize (path : String) : String :=
  let name0 := pathName path
  let name1 := if name0 = "" then "graph" else name0
  let name2 : String := ⟨collapseRuns name1.data⟩
  if name2.data.contains '.' then name2 else name2 ++ ".img"

/-- CPython dict assignment on an association list: overwrite in place when
the key is present (keeping its first-insertion position), append
otherwise. -/
def pyInsert {κ α : Type} [DecidableEq κ] (m : List (κ × α)) (k : κ) (v : α) : List (κ × α) :=
  if k ∈ m.map Prod.fst then m.map (fun p => if p.1 = k then (p.1, v) else p)
  else m ++ [(k, v)]

/-- Python `dict(pairs)` (as `.items()` lists it, in insertion order):
duplicate keys collapse to one entry at the first occurrence's position
holding the last occurrence's value. -/
def pyDict {κ α : Type} [DecidableEq κ] (l : List (κ × α)) : List (κ × α) :=
  l.foldl (fun m kv => pyInsert m kv.1 kv.2) []

/-- `scraper.py` line 169, the dict-comprehension entry:
`(str(k), "" if pd.isna(v) else str(v))` (keys are already strings). -/
def normEntry (kv : String × Cell) : String × String :=
  (kv.1, if isna kv.2 then "" else pyStr kv.2)

/-- The composite value transformation of `dataframe_to_rows` on one input
cell: `fillna("")` followed by `"" if pd.isna(v) else str(v)`. -/
def normVal (c : Cell) : String :=
  if isna (fillna c) then "" else pyStr (fillna c)

/-- `scraper.py` lines 164-172: `dataframe_to_rows`.
`df.to_dict(orient="records")` builds `dict(zip(df.columns, row))` for each
row, modelled by `pyDict` over the zip of the flattened header with the
filled row. -/
def dataframe_to_rows (df : DataFrame) : List String × List (List (String × String)) :=
  let cols := flatten_columns df.columns
  let filled := df.rows.map (fun r => r.map fillna)
  let rows := filled.map (fun r => (pyDict (cols.zip r)).map normEntry)
  (cols, rows)

/-- Shift an accumulating conditional into an added indicator term. -/
theorem ite_add_shift (p : Prop) [Decidable p] (s k : Nat) :
    (if p then s + k else s) = s + (if p then k else 0) := by
  by_cases h : p <;> simp [h]

/-- C5: the text relevance scorer is total on strings and equals the
additive sum of its four weighted, non-exclusive substring matches
(+2 "opinion", +3 "poll", +1 "graph"/"chart", +2 "next united
kingdom"/"general election"); it returns 0 on the empty string and on
non-matching text. -/
theorem spec_c5 :
    (∀ text, score_graph_candidate text =
      (if pyIn "opinion" (pyLower text) then 2 else 0) +
      (if pyIn "poll" (pyLower text) then 3 else 0) +
      (if pyIn "graph" (pyLower text) || pyIn "chart" (pyLower text) then 1 else 0) +
      (if pyIn "next united kingdom" (pyLower text) || pyIn "general election" (pyLower text) then 2
        else 0)) ∧
    score_graph_candidate "" = 0 ∧
    score_graph_candidate "BBC weather forecast" = 0 := by
  refine ⟨?_, rfl, rfl⟩
  intro text
  simp only [score_graph_candidate]
  rw [ite_add_shift, ite_add_shift, ite_add_shift, ite_add_shift, Nat.zero_add]

/-- A filter by a predicate that fails everywhere is empty. -/
theorem filterNone {β : Type} (p : β → Bool) :
    ∀ l : List β, (∀ x ∈ l, p x = false) → l.filter p = []
  | [], _ => rfl
  | x :: xs, h => by
    rw [List.filter_cons]
    have hx := h x (List.mem_cons_self _ _)
    simp only [hx, Bool.false_eq_true, if_false]
    exact filterNone p xs (fun z hz => h z (List.mem_cons_of_mem _ hz))

/-- C4: header flattening maps a single-level header to the trimmed string
form of each cell and a multi-level header column to the `" | "`-join of
its non-empty, non-`"nan"` level strings, substituting `"column"` when all
levels are empty or `"nan"`; the two-level header
`[("Con", "%"), ("Lab", "%")]` flattens to `["Con | %", "Lab | %"]`. -/
theorem spec_c4 :
    (∀ cs, flatten_columns (.single cs) = cs.map pyStrip) ∧
    (∀ tups, flatten_columns (.multi tups) = tups.map flattenTuple) ∧
    (∀ tup, (∀ x ∈ tup, pyStrip x = "" ∨ x = "nan") → flattenTuple tup = "column") ∧
    flatten_columns (.multi [["Con", "%"], ["Lab", "%"]]) = ["Con | %", "Lab | %"] := by
  refine ⟨fun cs => rfl, fun tups => rfl, ?_, rfl⟩
  intro tup h
  have hf : tup.filter (fun x => (pyStrip x != "") && (x != "nan")) = [] := by
    apply filterNone
    intro x hx
    rcases h x hx with h1 | h1 <;> simp [h1]
  simp [flattenTuple, hf]

/-- Witness for C4: a column tuple whose levels are all `"nan"` or
whitespace flattens to the literal `"column"`. -/
theorem spec_c4_witness :
    (∀ x ∈ ["nan", " "], pyStrip x = "" ∨ x = "nan") ∧ flattenTuple ["nan", " "] = "column" :=
  ⟨by decide, spec_c4.2.2.1 ["nan", " "] (by decide)⟩

/-- Processing in the middle of a disallowed run equals processing the
list with the rest of the run skipped. -/
theorem subRunsTrue (l : List Char) :
    subRuns true l = subRuns false (l.dropWhile (fun d => !allowedChar d)) := by
  induction l with
  | nil => rfl
  | cons c cs ih =>
    by_cases hc : allowedChar c
    · simp [subRuns, hc, List.dropWhile_cons]
    · simp [subRuns, hc, List.dropWhile_cons, ih]

/-- The sanitizer's substitution step agrees with the direct
"collapse each maximal disallowed run" formulation. -/
theorem subRunsFalseCollapse :
    ∀ (n : Nat) (l : List Char), l.length ≤ n → subRuns false l = collapseRuns l := by
  intro n
  induction n with
  | zero =>
    intro l hl
    have h0 : l = [] := List.length_eq_zero.mp (Nat.le_zero.mp hl)
    subst h0
    simp [subRuns, collapseRuns]
  | succ n ih =>
    intro l hl
    cases l with
    | nil => simp [subRuns, collapseRuns]
    | cons c cs =>
      have hl' : cs.length + 1 ≤ n + 1 := by simpa using hl
      by_cases hc : allowedChar c
      · have h1 : subRuns false (c :: cs) = c :: subRuns false cs := by simp [subRuns, hc]
        have h2 : collapseRuns (c :: cs) = c :: collapseRuns cs := by simp [collapseRuns, hc]
        rw [h1, h2, ih cs (by omega)]
      · have h1 : subRuns false (c :: cs) = '_' :: subRuns true cs := by simp [subRuns, hc]
        have h2 : collapseRuns (c :: cs) =
            '_' :: collapseRuns (cs.dropWhile (fun d => !allowedChar d)) := by
          simp [collapseRuns, hc]
        have hlen : (cs.dropWhile (fun d => !allowedChar d)).length ≤ n := by
          have h3 := dropWhileLenLe (fun d => !allowedChar d) cs
          omega
        rw [h1, h2, subRunsTrue, ih _ hlen]

/-- C6 (amended): the sanitizer takes the path's last segment, replaces
each maximal run of characters outside `[A-Za-z0-9._-]` with a single
`"_"`, and appends `".img"` when no `"."` is present; the claim's own
example `"/w/images/Graph (final)!.svg"` sanitizes to
`"Graph_final_.svg"`. -/
theorem spec_c6_amended :
    (∀ path, sanitize_filename_from_url path = runCollapseSanitize path) ∧
    sanitize_filename_from_url "/w/images/Graph (final)!.svg" = "Graph_final_.svg" := by
  constructor
  · intro path
    have h := subRunsFalseCollapse
      (if pathName path = "" then "graph" else pathName path).data.length
      (if pathName path = "" then "graph" else pathName path).data (Nat.le_refl _)
    simp only [sanitize_filename_from_url, runCollapseSanitize, h]
  · rfl

/-- Counterexample for C6 as stated: on the claim's own example the
per-character reading produces `"Graph__final__.svg"` (one underscore per
disallowed character), while the code produces `"Graph_final_.svg"` — the
regex `[^A-Za-z0-9._-]+` replaces each maximal run, not each character. -/
theorem spec_c6_counterexample :
    perCharSanitize "/w/images/Graph (final)!.svg" = "Graph__final__.svg" ∧
    sanitize_filename_from_url "/w/images/Graph (final)!.svg" = "Graph_final_.svg" ∧
    ¬ perCharSanitize "/w/images/Graph (final)!.svg" =
        sanitize_filename_from_url "/w/images/Graph (final)!.svg" :=
  ⟨rfl, rfl, by decide⟩

/-- Python `max` over `x :: xs` returns the first element attaining the
maximum key: the list splits as `pre ++ max :: post` with every element of
`pre` strictly below the maximum and every element at most the maximum. -/
theorem pyMax_spec {α : Type} (key : α → Nat) (xs : List α) :
    ∀ x : α, ∃ pre post, x :: xs = pre ++ (pyMax key x xs) :: post ∧
      (∀ y ∈ pre, key y < key (pyMax key x xs)) ∧
      (∀ y ∈ x :: xs, key y ≤ key (pyMax key x xs)) := by
  induction xs with
  | nil =>
    intro x
    simp only [pyMax]
    exact ⟨[], [], rfl, by simp, by simp⟩
  | cons y ys ih =>
    intro x
    by_cases hxy : key x < key y
    · have hm : pyMax key x (y :: ys) = pyMax key y ys := by
        simp only [pyMax, if_pos hxy]
      obtain ⟨pre, post, hdec, hpre, hall⟩ := ih y
      rw [hm]
      have hym : key y ≤ key (pyMax key y ys) := hall y (List.mem_cons_self _ _)
      refine ⟨x :: pre, post, ?_, ?_, ?_⟩
      · rw [List.cons_append, ← hdec]
      · intro z hz
        rcases List.mem_cons.mp hz with h | h
        · subst h; omega
        · exact hpre z h
      · intro z hz
        rcases List.mem_cons.mp hz with h | h
        · subst h; omega
        · exact hall z h
    · have hm : pyMax key x (y :: ys) = pyMax key x ys := by
        simp only [pyMax, if_neg hxy]
      obtain ⟨pre, post, hdec, hpre, hall⟩ := ih x
      rw [hm]
      have hyx : key y ≤ key x := Nat.le_of_not_lt hxy
      have hxm : key x ≤ key (pyMax key x ys) := hall x (List.mem_cons_self _ _)
      cases pre with
      | nil =>
        rw [List.nil_append] at hdec
        injection hdec with hx hpost
        refine ⟨[], y :: ys, ?_, by simp, ?_⟩
        · rw [List.nil_append, ← hx]
        · intro z hz
          rcases List.mem_cons.mp hz with h | h
          · subst h; exact hxm
          · rcases List.mem_cons.mp h with h' | h'
            · subst h'; omega
            · exact hall z (List.mem_cons_of_mem _ h')
      | cons p pre' =>
        rw [List.cons_append] at hdec
        injection hdec with h1 h2
        have hxlt : key x < key (pyMax key x ys) := by
          have hp := hpre p (List.mem_cons_self _ _)
          rw [← h1] at hp
          exact hp
        refine ⟨x :: y :: pre', post, ?_, ?_, ?_⟩
        · rw [List.cons_append, List.cons_append, ← h2]
        · intro z hz
          rcases List.mem_cons.mp hz with h | h
          · subst h; exact hxlt
          · rcases List.mem_cons.mp h with h' | h'
            · subst h'; omega
            · exact hpre z (List.mem_cons_of_mem _ h')
        · intro z hz
          rcases List.mem_cons.mp hz with h | h
          · subst h; exact hxm
          · rcases List.mem_cons.mp h with h' | h'
            · subst h'; omega
            · exact hall z (List.mem_cons_of_mem _ h')

/-- C2: the table score is the additive sum of +2 per heavy token
(`poll`, `pollster`, `date`, `fieldwork`) present as a substring of the
joined lower-cased flattened header, +1 per light token (`con`,
`conservative`, `lab`, `labour`, `ld`, `lib dem`, `reform`), and +1 when
the row count is at least 5; and whenever `extract_table` selects a table,
it is the first candidate attaining the maximum score. -/
theorem spec_c2 :
    (∀ df, score_table df =
      (if pyIn "poll" (headerStr df) then 2 else 0) +
      (if pyIn "pollster" (headerStr df) then 2 else 0) +
      (if pyIn "date" (headerStr df) then 2 else 0) +
      (if pyIn "fieldwork" (headerStr df) then 2 else 0) +
      (if pyIn "con" (headerStr df) then 1 else 0) +
      (if pyIn "conservative" (headerStr df) then 1 else 0) +
      (if pyIn "lab" (headerStr df) then 1 else 0) +
      (if pyIn "labour" (headerStr df) then 1 else 0) +
      (if pyIn "ld" (headerStr df) then 1 else 0) +
      (if pyIn "lib dem" (headerStr df) then 1 else 0) +
      (if pyIn "reform" (headerStr df) then 1 else 0) +
      (if df.rows.length ≥ 5 then 1 else 0)) ∧
    (∀ tables title best, extract_table tables = .ok (title, best) →
      ∃ pre post, tables = pre ++ best :: post ∧
        (∀ y ∈ pre, score_table y < score_table best) ∧
        (∀ y ∈ tables, score_table y ≤ score_table best)) := by
  constructor
  · intro df
    simp only [score_table, List.foldl_cons, List.foldl_nil]
    rw [ite_add_shift, ite_add_shift, ite_add_shift, ite_add_shift, ite_add_shift, ite_add_shift,
      ite_add_shift, ite_add_shift, ite_add_shift, ite_add_shift, ite_add_shift, ite_add_shift,
      Nat.zero_add]
  · intro tables title best h
    cases tables with
    | nil => exact Except.noConfusion h
    | cons t ts =>
      simp only [extract_table] at h
      by_cases hs : score_table (pyMax score_table t ts) < 4
      · rw [if_pos hs] at h
        exact Except.noConfusion h
      · rw [if_neg hs] at h
        injection h with h'
        injection h' with hTitle hBest
        subst hBest
        exact pyMax_spec score_table ts t

/-- C3: `extract_table` fails with the "no tables" error exactly on an
empty candidate list, fails with the distinct "no confident table" error
exactly when candidates exist but all score below the fixed threshold 4,
and returns a selected table in every other case. -/
theorem spec_c3 : ∀ tables : List DataFrame,
    (extract_table tables = .error "No tables found on page" ↔ tables = []) ∧
    (extract_table tables = .error "Could not confidently identify polling table" ↔
      (tables ≠ [] ∧ ∀ t ∈ tables, score_table t < 4)) ∧
    ((tables ≠ [] ∧ ∃ t ∈ tables, 4 ≤ score_table t) →
      ∃ best ∈ tables,
        extract_table tables = .ok ("Wikipedia polling table (auto-detected)", best)) ∧
    "No tables found on page" ≠ "Could not confidently identify polling table" := by
  intro tables
  cases tables with
  | nil =>
    refine ⟨⟨fun _ => rfl, fun _ => rfl⟩, ?_, ?_, by decide⟩
    · constructor
      · intro h
        injection h with h'
        exact absurd h' (by decide)
      · rintro ⟨hne, _⟩
        exact absurd rfl hne
    · rintro ⟨hne, _⟩
      exact absurd rfl hne
  | cons t ts =>
    obtain ⟨pre, post, hdec, hpre, hall⟩ := pyMax_spec score_table ts t
    have hmem : pyMax score_table t ts ∈ t :: ts := by
      rw [hdec]
      exact List.mem_append_right _ (List.mem_cons_self _ _)
    by_cases hs : score_table (pyMax score_table t ts) < 4
    · have hres : extract_table (t :: ts) =
          .error "Could not confidently identify polling table" := by
        simp only [extract_table, if_pos hs]
      refine ⟨?_, ?_, ?_, by decide⟩
      · rw [hres]
        constructor
        · intro h
          injection h with h'
          exact absurd h' (by decide)
        · intro h
          exact absurd h (List.cons_ne_nil t ts)
      · rw [hres]
        constructor
        · intro _
          refine ⟨List.cons_ne_nil t ts, ?_⟩
          intro z hz
          have := hall z hz
          omega
        · intro _
          rfl
      · rintro ⟨_, z, hz, h4⟩
        have := hall z hz
        exfalso
        omega
    · have hres : extract_table (t :: ts) =
          .ok ("Wikipedia polling table (auto-detected)", pyMax score_table t ts) := by
        simp only [extract_table, if_neg hs]
      refine ⟨?_, ?_, ?_, by decide⟩
      · rw [hres]
        constructor
        · intro h
          exact Except.noConfusion h
        · intro h
          exact absurd h (List.cons_ne_nil t ts)
      · rw [hres]
        constructor
        · intro h
          exact Except.noConfusion h
        · rintro ⟨_, hallLt⟩
          have := hallLt _ hmem
          exfalso
          omega
      · intro _
        exact ⟨pyMax score_table t ts, hmem, hres⟩

/-- A low-scoring synthetic table: generic headers, two rows. -/
def dfLow : DataFrame :=
  ⟨.single ["Name", "Value"], [[Cell.val "a", Cell.val "1"], [Cell.val "b", Cell.val "2"]]⟩

/-- A high-scoring synthetic polling table: pollster/fieldwork/party
headers and five rows. -/
def dfHi : DataFrame :=
  ⟨.single ["Pollster", "Fieldwork date", "Con", "Lab"],
   [[Cell.val "A", Cell.val "1 Jan", Cell.val "40", Cell.val "38"],
    [Cell.val "B", Cell.val "2 Jan", Cell.val "41", Cell.val "37"],
    [Cell.val "C", Cell.val "3 Jan", Cell.val "39", Cell.val "39"],
    [Cell.val "D", Cell.val "4 Jan", Cell.val "42", Cell.val "36"],
    [Cell.val "E", Cell.val "5 Jan", Cell.val "40", Cell.val "38"]]⟩

/-- A candidate list with a tie between two equal best tables. -/
def tables1 : List DataFrame := [dfLow, dfHi, dfHi]

/-- Witness for C2: on a concrete candidate list with a tied maximum, the
selected table is the first maximal one. -/
theorem spec_c2_witness :
    extract_table tables1 = .ok ("Wikipedia polling table (auto-detected)", dfHi) ∧
    ∃ pre post, tables1 = pre ++ dfHi :: post ∧
      (∀ y ∈ pre, score_table y < score_table dfHi) ∧
      (∀ y ∈ tables1, score_table y ≤ score_table dfHi) :=
  ⟨rfl, spec_c2.2 tables1 "Wikipedia polling table (auto-detected)" dfHi rfl⟩

/-- Witness for C3: a non-empty candidate list containing a table scoring
at least 4 yields a selected table. -/
theorem spec_c3_witness :
    (tables1 ≠ [] ∧ ∃ t ∈ tables1, 4 ≤ score_table t) ∧
    ∃ best ∈ tables1,
      extract_table tables1 = .ok ("Wikipedia polling table (auto-detected)", best) :=
  ⟨⟨by decide, by decide⟩, (spec_c3 tables1).2.2.1 ⟨by decide, by decide⟩⟩

/-- The head of the stable descending sort is the first element of the
input attaining the maximal score. -/
theorem sortDesc_head : ∀ l : List Cand, l ≠ [] →
    ∃ pre best post t, l = pre ++ best :: post ∧ sortDesc l = best :: t ∧
      (∀ y ∈ pre, y.1 < best.1) ∧ (∀ y ∈ l, y.1 ≤ best.1) := by
  intro l
  induction l with
  | nil => intro h; exact absurd rfl h
  | cons x xs ih =>
    intro _
    cases xs with
    | nil => exact ⟨[], x, [], [], rfl, rfl, by simp, by simp⟩
    | cons z zs =>
      obtain ⟨pre, best, post, t, hdec, hsort, hpre, hall⟩ := ih (List.cons_ne_nil z zs)
      have hs : sortDesc (x :: z :: zs) = insertDesc x (sortDesc (z :: zs)) := rfl
      rw [hsort] at hs
      by_cases hlt : x.1 < best.1
      · have hins : insertDesc x (best :: t) = best :: insertDesc x t := by
          simp only [insertDesc, if_pos hlt]
        refine ⟨x :: pre, best, post, insertDesc x t, ?_, ?_, ?_, ?_⟩
        · rw [List.cons_append, ← hdec]
        · rw [hs, hins]
        · intro y hy
          rcases List.mem_cons.mp hy with h | h
          · subst h; exact hlt
          · exact hpre y h
        · intro y hy
          rcases List.mem_cons.mp hy with h | h
          · subst h; omega
          · exact hall y h
      · have hins : insertDesc x (best :: t) = x :: best :: t := by
          simp only [insertDesc, if_neg hlt]
        have hbx : best.1 ≤ x.1 := Nat.le_of_not_lt hlt
        refine ⟨[], x, z :: zs, best :: t, rfl, ?_, by simp, ?_⟩
        · rw [hs, hins]
        · intro y hy
          rcases List.mem_cons.mp hy with h | h
          · subst h; exact Nat.le_refl _
          · have := hall y h
            omega

/-- With a non-empty primary candidate list, `extract_graph` returns the
URL and caption of the first candidate attaining the maximal score. -/
theorem extract_graph_first_max (uj : String → String → String) (pu : String) (doc : GraphDoc) :
    doc.containers.filterMap (candOf uj pu) ≠ [] →
    ∃ pre best post, doc.containers.filterMap (candOf uj pu) = pre ++ best :: post ∧
      (∀ y ∈ pre, y.1 < best.1) ∧
      (∀ y ∈ doc.containers.filterMap (candOf uj pu), y.1 ≤ best.1) ∧
      extract_graph uj doc pu = (some best.2.1, best.2.2) := by
  intro h
  rcases hp : doc.containers.filterMap (candOf uj pu) with _ | ⟨c, cs⟩
  · exact absurd hp h
  · obtain ⟨pre, best, post, t, hdec, hsort, hpre, hall⟩ :=
      sortDesc_head (c :: cs) (List.cons_ne_nil c cs)
    refine ⟨pre, best, post, ?_, hpre, ?_, ?_⟩
    · exact hdec
    · intro y hy; exact hall y hy
    · simp [extract_graph, hp, selectPrimary, hsort]

/-- The three mutually exclusive outcomes of `extract_graph`: both passes
empty, fallback hit, or a primary winner. -/
theorem extract_graph_cases (uj : String → String → String) (pu : String) (doc : GraphDoc) :
    (doc.containers.filterMap (candOf uj pu) = [] ∧
      doc.contentImgs.find? fallbackPred = none ∧ extract_graph uj doc pu = (none, none)) ∨
    (∃ img, doc.containers.filterMap (candOf uj pu) = [] ∧
      doc.contentImgs.find? fallbackPred = some img ∧
      extract_graph uj doc pu = (some (uj pu (normalize_img_url (img.src.getD ""))), img.alt)) ∨
    (∃ u cap, doc.containers.filterMap (candOf uj pu) ≠ [] ∧
      extract_graph uj doc pu = (some u, cap)) := by
  rcases hp : doc.containers.filterMap (candOf uj pu) with _ | ⟨c, cs⟩
  · rcases hf : doc.contentImgs.find? fallbackPred with _ | img
    · exact Or.inl ⟨rfl, rfl, by simp [extract_graph, hp, hf]⟩
    · exact Or.inr (Or.inl ⟨img, rfl, rfl, by simp [extract_graph, hp, hf]⟩)
  · obtain ⟨pre, best, post, t, hdec, hsort, hpre, hall⟩ :=
      sortDesc_head (c :: cs) (List.cons_ne_nil c cs)
    refine Or.inr (Or.inr ⟨best.2.1, best.2.2, ?_, ?_⟩)
    · exact List.cons_ne_nil c cs
    · simp [extract_graph, hp, selectPrimary, hsort]

/-- A primary-pass container whose combined alt+caption text scores zero
is discarded (`continue`) rather than kept as a candidate. -/
theorem candOf_zero (uj : String → String → String) (pu : String) :
    ∀ (c : Container) (img : Img), c.img = some img →
    score_graph_candidate (pyStrip ((img.alt.getD "") ++ " " ++ (c.caption.getD ""))) = 0 →
    candOf uj pu c = none := by
  intro c img himg hsc
  simp only [candOf, himg]
  rcases hsrc : img.src with _ | s
  · simp
  · simp only []
    by_cases hs : s = ""
    · simp [hs]
    · simp [hs, hsc]

/-- C8: image extraction yields a null graph URL exactly when the primary
pass produces zero qualifying candidates (zero-scoring containers are
discarded there) and the fallback scan over article images finds no alt
text mentioning `"poll"`; in that case the whole result is `(none, none)`,
an ordinary return value rather than an exception. -/
theorem spec_c8 : ∀ (uj : String → String → String) (pu : String) (doc : GraphDoc),
    ((extract_graph uj doc pu).1 = none ↔
      (doc.containers.filterMap (candOf uj pu) = [] ∧
        doc.contentImgs.find? fallbackPred = none)) ∧
    ((extract_graph uj doc pu).1 = none → extract_graph uj doc pu = (none, none)) ∧
    (∀ (c : Container) (img : Img), c.img = some img →
      score_graph_candidate (pyStrip ((img.alt.getD "") ++ " " ++ (c.caption.getD ""))) = 0 →
      candOf uj pu c = none) := by
  intro uj pu doc
  refine ⟨?_, ?_, candOf_zero uj pu⟩
  · rcases extract_graph_cases uj pu doc with ⟨hp, hf, he⟩ | ⟨img, hp, hf, he⟩ |
      ⟨u, cap, hp, he⟩
    · rw [he, hp, hf]; simp
    · rw [he, hp, hf]; simp
    · rw [he]; simp [hp]
  · rcases extract_graph_cases uj pu doc with ⟨hp, hf, he⟩ | ⟨img, hp, hf, he⟩ |
      ⟨u, cap, hp, he⟩
    · intro _; exact he
    · rw [he]; intro h; exact Option.noConfusion h
    · rw [he]; intro h; exact Option.noConfusion h

/-- C7: among the primary-pass candidates (taken in document encounter
order), the selected image is the first one attaining the maximal score,
so equal-scoring candidates resolve to the first-scanned one. -/
theorem spec_c7 : ∀ (uj : String → String → String) (pu : String) (doc : GraphDoc),
    doc.containers.filterMap (candOf uj pu) ≠ [] →
    ∃ pre best post, doc.containers.filterMap (candOf uj pu) = pre ++ best :: post ∧
      (∀ y ∈ pre, y.1 < best.1) ∧
      (∀ y ∈ doc.containers.filterMap (candOf uj pu), y.1 ≤ best.1) ∧
      extract_graph uj doc pu = (some best.2.1, best.2.2) :=
  fun uj pu doc h => extract_graph_first_max uj pu doc h

/-- C10: a primary candidate built from a container with no caption
element (or an empty caption) carries a null caption — whatever its alt
text — and the selected winner's caption is what `extract_graph` returns;
when the fallback pass fires, the returned caption is the image's alt
text. -/
theorem spec_c10 : ∀ (uj : String → String → String) (pu : String),
    (∀ (c : Container) (sc : Nat) (u : String) (cap : Option String),
      candOf uj pu c = some (sc, u, cap) → (c.caption = none ∨ c.caption = some "") →
      cap = none) ∧
    (∀ doc : GraphDoc, doc.containers.filterMap (candOf uj pu) ≠ [] →
      ∃ pre best post, doc.containers.filterMap (candOf uj pu) = pre ++ best :: post ∧
        (∀ y ∈ pre, y.1 < best.1) ∧ (extract_graph uj doc pu).2 = best.2.2) ∧
    (∀ (doc : GraphDoc) (img : Img), doc.containers.filterMap (candOf uj pu) = [] →
      doc.contentImgs.find? fallbackPred = some img →
      extract_graph uj doc pu =
        (some (uj pu (normalize_img_url (img.src.getD ""))), img.alt)) := by
  intro uj pu
  refine ⟨?_, ?_, ?_⟩
  · intro c sc u cap h hcap
    have hc : c.caption.getD "" = "" := by
      rcases hcap with h' | h' <;> simp [h']
    rcases himg : c.img with _ | img
    · simp [candOf, himg] at h
    · simp only [candOf, himg] at h
      rcases hsrc : img.src with _ | s
      · simp [hsrc] at h
      · simp only [hsrc] at h
        by_cases hs : s = ""
        · simp [hs] at h
        · rw [if_neg hs] at h
          by_cases hsc :
              score_graph_candidate (pyStrip ((img.alt.getD "") ++ " " ++ c.caption.getD "")) ≤ 0
          · rw [if_pos hsc] at h
            exact Option.noConfusion h
          · rw [if_neg hsc] at h
            injection h with h'
            injection h' with h1 h2
            injection h2 with h3 h4
            rw [hc] at h4
            simp at h4
            exact h4.symm
  · intro doc h
    obtain ⟨pre, best, post, hdec, hpre, hall, he⟩ := extract_graph_first_max uj pu doc h
    exact ⟨pre, best, post, hdec, hpre, by rw [he]⟩
  · intro doc img hp hf
    simp [extract_graph, hp, hf]

/-- The identity resolver standing in for `urljoin` in concrete tests. -/
def ujId : String → String → String := fun _ s => s

/-- A qualifying image for the tie-break scenario. -/
def imgTie : Img := ⟨some "//x/p.png", some "poll graph"⟩

/-- A qualifying container for the tie-break scenario. -/
def contTie : Container := ⟨some imgTie, some "general election"⟩

/-- A document with two identical qualifying containers. -/
def docTie : GraphDoc := ⟨[contTie, contTie], []⟩

/-- Witness for C7: two identical candidates with equal scores resolve to
the first-scanned one. -/
theorem spec_c7_witness :
    docTie.containers.filterMap (candOf ujId "page") ≠ [] ∧
    ∃ pre best post, docTie.containers.filterMap (candOf ujId "page") = pre ++ best :: post ∧
      (∀ y ∈ pre, y.1 < best.1) ∧
      (∀ y ∈ docTie.containers.filterMap (candOf ujId "page"), y.1 ≤ best.1) ∧
      extract_graph ujId docTie "page" = (some best.2.1, best.2.2) :=
  ⟨by decide, spec_c7 ujId "page" docTie (by decide)⟩

/-- A document with nothing for either pass. -/
def docEmpty : GraphDoc := ⟨[], []⟩

/-- An image with irrelevant alt text, inside `contCat`. -/
def imgCat : Img := ⟨some "x.png", some "a cat"⟩

/-- A container whose combined text scores zero. -/
def contCat : Container := ⟨some imgCat, some "a dog"⟩

/-- Witness for C8: an empty document yields `(none, none)`, and a
zero-scoring container is discarded by the primary pass. -/
theorem spec_c8_witness :
    extract_graph ujId docEmpty "p" = (none, none) ∧ candOf ujId "p" contCat = none :=
  ⟨(spec_c8 ujId "p" docEmpty).2.1 ((spec_c8 ujId "p" docEmpty).1.mpr ⟨rfl, rfl⟩),
   (spec_c8 ujId "p" docEmpty).2.2 contCat imgCat rfl (by decide)⟩

/-- The fallback image whose alt text mentions polling. -/
def imgFall : Img := ⟨some "f.png", some "Poll trend"⟩

/-- A document where only the fallback pass finds an image. -/
def docFall : GraphDoc := ⟨[], [imgFall]⟩

/-- A qualifying container with a non-empty alt text but no caption. -/
def contNoCap : Container := ⟨some ⟨some "x.png", some "opinion poll graph"⟩, none⟩

/-- Witness for C10: the fallback result's caption is the image's alt
text, and a captionless container's candidate carries a null caption. -/
theorem spec_c10_witness :
    docFall.containers.filterMap (candOf ujId "p") = [] ∧
    docFall.contentImgs.find? fallbackPred = some imgFall ∧
    extract_graph ujId docFall "p" =
      (some (ujId "p" (normalize_img_url (imgFall.src.getD ""))), imgFall.alt) ∧
    candOf ujId "p" contNoCap = some (6, "x.png", none) ∧
    (none : Option String) = none :=
  ⟨rfl, by decide, (spec_c10 ujId "p").2.2 docFall imgFall rfl (by decide),
   by decide, (spec_c10 ujId "p").1 contNoCap 6 "x.png" none (by decide) (Or.inl rfl)⟩

/-- Keys after one dict assignment: unchanged when the key is present,
appended otherwise. -/
theorem pyInsert_keys {κ α : Type} [DecidableEq κ] (m : List (κ × α)) (k : κ) (v : α) :
    (pyInsert m k v).map Prod.fst =
      if k ∈ m.map Prod.fst then m.map Prod.fst else m.map Prod.fst ++ [k] := by
  by_cases h : k ∈ m.map Prod.fst
  · rw [if_pos h]
    simp only [pyInsert, if_pos h, List.map_map]
    refine List.map_congr_left ?_
    intro p _
    by_cases hp : p.1 = k
    · simp [Function.comp, hp]
    · simp [Function.comp, hp]
  · rw [if_neg h]
    simp [pyInsert, if_neg h]

/-- Keys present in the accumulator survive the rest of the fold. -/
theorem pyDictFrom_keys_mono {κ α : Type} [DecidableEq κ] :
    ∀ (l m : List (κ × α)) (x : κ), x ∈ m.map Prod.fst →
      x ∈ (List.foldl (fun m kv => pyInsert m kv.1 kv.2) m l).map Prod.fst := by
  intro l
  induction l with
  | nil => intro m x hx; simpa using hx
  | cons kv rest ih =>
    intro m x hx
    rw [List.foldl_cons]
    apply ih
    rw [pyInsert_keys]
    by_cases h : kv.1 ∈ m.map Prod.fst
    · rw [if_pos h]; exact hx
    · rw [if_neg h]; exact List.mem_append_left _ hx

/-- The assigned key is a key afterwards. -/
theorem pyInsert_key_mem {κ α : Type} [DecidableEq κ] (m : List (κ × α)) (k : κ) (v : α) :
    k ∈ (pyInsert m k v).map Prod.fst := by
  rw [pyInsert_keys]
  by_cases h : k ∈ m.map Prod.fst
  · rw [if_pos h]; exact h
  · rw [if_neg h]; exact List.mem_append_right _ (List.mem_cons_self _ _)

/-- Every key of the input pair list is a key of the built dict. -/
theorem pyDictFrom_keys_complete {κ α : Type} [DecidableEq κ] :
    ∀ (l m : List (κ × α)), ∀ kv ∈ l,
      kv.1 ∈ (List.foldl (fun m kv => pyInsert m kv.1 kv.2) m l).map Prod.fst := by
  intro l
  induction l with
  | nil => intro m kv h; exact absurd h (List.not_mem_nil kv)
  | cons kv0 rest ih =>
    intro m kv h
    rw [List.foldl_cons]
    rcases List.mem_cons.mp h with h1 | h1
    · subst h1
      exact pyDictFrom_keys_mono rest _ _ (pyInsert_key_mem m kv.1 kv.2)
    · exact ih _ kv h1

/-- Every key of the built dict comes from the accumulator or the input. -/
theorem pyDictFrom_keys_sound {κ α : Type} [DecidableEq κ] :
    ∀ (l m : List (κ × α)) (x : κ),
      x ∈ (List.foldl (fun m kv => pyInsert m kv.1 kv.2) m l).map Prod.fst →
      x ∈ m.map Prod.fst ∨ x ∈ l.map Prod.fst := by
  intro l
  induction l with
  | nil => intro m x hx; exact Or.inl (by simpa using hx)
  | cons kv rest ih =>
    intro m x hx
    rw [List.foldl_cons] at hx
    rcases ih _ x hx with h | h
    · rw [pyInsert_keys] at h
      by_cases hk : kv.1 ∈ m.map Prod.fst
      · rw [if_pos hk] at h; exact Or.inl h
      · rw [if_neg hk] at h
        rcases List.mem_append.mp h with h' | h'
        · exact Or.inl h'
        · have hx1 := List.mem_singleton.mp h'
          subst hx1
          exact Or.inr (by simp)
    · exact Or.inr (by rw [List.map_cons]; exact List.mem_cons_of_mem _ h)

/-- The built dict never has a duplicated key. -/
theorem pyDictFrom_keys_nodup {κ α : Type} [DecidableEq κ] :
    ∀ (l m : List (κ × α)), (m.map Prod.fst).Nodup →
      ((List.foldl (fun m kv => pyInsert m kv.1 kv.2) m l).map Prod.fst).Nodup := by
  intro l
  induction l with
  | nil => intro m h; simpa using h
  | cons kv rest ih =>
    intro m h
    rw [List.foldl_cons]
    apply ih
    rw [pyInsert_keys]
    by_cases hk : kv.1 ∈ m.map Prod.fst
    · rw [if_pos hk]; exact h
    · rw [if_neg hk]
      exact List.nodup_append.mpr ⟨h, List.nodup_singleton _, List.disjoint_singleton.mpr hk⟩

/-- Keys of the built dict extend the accumulator's keys by a sublist of
the input's key sequence (so first occurrences in first-seen order). -/
theorem pyDictFrom_keys_sublist {κ α : Type} [DecidableEq κ] :
    ∀ (l m : List (κ × α)), ∃ extra,
      (List.foldl (fun m kv => pyInsert m kv.1 kv.2) m l).map Prod.fst =
        m.map Prod.fst ++ extra ∧
      extra.Sublist (l.map Prod.fst) := by
  intro l
  induction l with
  | nil => intro m; exact ⟨[], by simp, by simp⟩
  | cons kv rest ih =>
    intro m
    obtain ⟨extra, heq, hsub⟩ := ih (pyInsert m kv.1 kv.2)
    by_cases hk : kv.1 ∈ m.map Prod.fst
    · refine ⟨extra, ?_, ?_⟩
      · rw [List.foldl_cons, heq, pyInsert_keys, if_pos hk]
      · rw [List.map_cons]
        exact hsub.cons _
    · refine ⟨kv.1 :: extra, ?_, ?_⟩
      · rw [List.foldl_cons, heq, pyInsert_keys, if_neg hk, List.append_assoc]
        rfl
      · rw [List.map_cons]
        exact hsub.cons₂ _

/-- A value after one dict assignment is the assigned value or an old one. -/
theorem pyInsert_snds {κ α : Type} [DecidableEq κ] (m : List (κ × α)) (k : κ) (v : α) :
    ∀ x ∈ (pyInsert m k v).map Prod.snd, x = v ∨ x ∈ m.map Prod.snd := by
  intro x hx
  unfold pyInsert at hx
  by_cases hk : k ∈ m.map Prod.fst
  · rw [if_pos hk, List.map_map] at hx
    rcases List.mem_map.mp hx with ⟨p, hp, hpx⟩
    by_cases hpk : p.1 = k
    · left
      rw [← hpx]
      simp [Function.comp, hpk]
    · right
      have hval : (Prod.snd ∘ fun p => if p.1 = k then (p.1, v) else p) p = p.2 := by
        simp [Function.comp, hpk]
      rw [← hpx, hval]
      exact List.mem_map_of_mem _ hp
  · rw [if_neg hk, List.map_append] at hx
    rcases List.mem_append.mp hx with h | h
    · exact Or.inr h
    · left
      simpa using h
/-- Every value of the built dict comes from the accumulator or the input
pair list. -/
theorem pyDictFrom_snds {κ α : Type} [DecidableEq κ] :
    ∀ (l m : List (κ × α)) (x : α),
      x ∈ (List.foldl (fun m kv => pyInsert m kv.1 kv.2) m l).map Prod.snd →
      x ∈ m.map Prod.snd ∨ x ∈ l.map Prod.snd := by
  intro l
  induction l with
  | nil => intro m x hx; exact Or.inl (by simpa using hx)
  | cons kv rest ih =>
    intro m x hx
    rw [List.foldl_cons] at hx
    rcases ih _ x hx with h | h
    · rcases pyInsert_snds m kv.1 kv.2 x h with h' | h'
      · subst h'
        exact Or.inr (by rw [List.map_cons]; exact List.mem_cons_self _ _)
      · exact Or.inl h'
    · exact Or.inr (by rw [List.map_cons]; exact List.mem_cons_of_mem _ h)

/-- Normalizing the entries of a record keeps its key sequence. -/
theorem normEntry_keys : ∀ l : List (String × Cell),
    (l.map normEntry).map Prod.fst = l.map Prod.fst
  | [] => rfl
  | p :: rest => by
    simp only [List.map_cons, normEntry_keys rest]
    rfl

/-- Header flattening keeps the column count. -/
theorem flatten_columns_length (c : Columns) : (flatten_columns c).length = colCount c := by
  cases c <;> simp [flatten_columns, colCount]

/-- `pyDict` is the fold of dict assignments starting from the empty dict. -/
theorem pyDict_eq_foldl {κ α : Type} [DecidableEq κ] (l : List (κ × α)) :
    pyDict l = List.foldl (fun m kv => pyInsert m kv.1 kv.2) [] l := rfl

/-- One step of first-occurrence deduplication: keep the key's first
position, ignore later occurrences. -/
def insKey {κ : Type} [DecidableEq κ] (acc : List κ) (k : κ) : List κ :=
  if k ∈ acc then acc else acc ++ [k]

/-- First-occurrence deduplication of a key sequence: what becomes of the
key order when the keys are dict-inserted from left to right. -/
def dedupFirst {κ : Type} [DecidableEq κ] (l : List κ) : List κ :=
  l.foldl insKey []

/-- The dict fold's key sequence is the `insKey` fold of the input keys. -/
theorem pyDictFrom_keys_eq {κ α : Type} [DecidableEq κ] :
    ∀ (l m : List (κ × α)),
      (List.foldl (fun m kv => pyInsert m kv.1 kv.2) m l).map Prod.fst =
        List.foldl insKey (m.map Prod.fst) (l.map Prod.fst) := by
  intro l
  induction l with
  | nil => intro m; rfl
  | cons kv rest ih =>
    intro m
    rw [List.foldl_cons, List.map_cons, List.foldl_cons, ih, pyInsert_keys]
    rfl

/-- The value of the last pair carrying a given key (`none` when the key
does not occur): the value a Python dict ends up holding at that key. -/
def lastVal {κ α : Type} [DecidableEq κ] : List (κ × α) → κ → Option α
  | [], _ => none
  | p :: rest, k =>
    match lastVal rest k with
    | some v => some v
    | none => if p.1 = k then some p.2 else none

/-- `lastVal` commutes with a value transformation applied entry-wise. -/
theorem lastVal_map_snd {κ α β : Type} [DecidableEq κ] (f : α → β) :
    ∀ (l : List (κ × α)) (k : κ),
      lastVal (l.map (fun p => (p.1, f p.2))) k = (lastVal l k).map f
  | [], _ => rfl
  | p :: rest, k => by
    cases h : lastVal rest k with
    | some v =>
      have hl : lastVal ((p :: rest).map (fun p => (p.1, f p.2))) k = some (f v) := by
        simp [lastVal, lastVal_map_snd f rest k, h]
      rw [hl]
      simp [lastVal, h]
    | none =>
      by_cases hc : p.1 = k
      · have hl : lastVal ((p :: rest).map (fun p => (p.1, f p.2))) k = some (f p.2) := by
          simp [lastVal, lastVal_map_snd f rest k, h, hc]
        rw [hl]
        simp [lastVal, h, hc]
      · have hl : lastVal ((p :: rest).map (fun p => (p.1, f p.2))) k = none := by
          simp [lastVal, lastVal_map_snd f rest k, h, hc]
        rw [hl]
        simp [lastVal, h, hc]

/-- Zipping against a mapped list is mapping the transformation over the
zipped pairs' values. -/
theorem zipMapSnd {κ α β : Type} (f : α → β) :
    ∀ (l : List κ) (r : List α),
      l.zip (r.map f) = (l.zip r).map (fun p => (p.1, f p.2))
  | [], _ => by simp
  | _ :: _, [] => by simp
  | k :: ks, a :: as => by
    rw [List.map_cons, List.zip_cons_cons, List.zip_cons_cons, List.map_cons,
      zipMapSnd f ks as]

/-- Zipping a mapped list against its source pairs each element with its
image. -/
theorem zip_map_self {α β : Type} (f : α → β) :
    ∀ l : List α, (l.map f).zip l = l.map (fun x => (f x, x))
  | [] => rfl
  | x :: xs => by
    rw [List.map_cons, List.zip_cons_cons, List.map_cons, zip_map_self f xs]

/-- An entry of a dict assignment whose key differs from the assigned key
was already present. -/
theorem pyInsert_mem_ne {κ α : Type} [DecidableEq κ] (m : List (κ × α)) (k : κ) (v : α)
    (kv : κ × α) : kv ∈ pyInsert m k v → ¬ kv.1 = k → kv ∈ m := by
  intro h hk
  unfold pyInsert at h
  by_cases hmem : k ∈ m.map Prod.fst
  · rw [if_pos hmem] at h
    rcases List.mem_map.mp h with ⟨p, hp, hpeq⟩
    by_cases hpk : p.1 = k
    · rw [← hpeq] at hk
      simp [hpk] at hk
    · rw [← hpeq]
      simp only [if_neg hpk]
      exact hp
  · rw [if_neg hmem] at h
    rcases List.mem_append.mp h with h | h
    · exact h
    · exfalso
      have hkv := List.mem_singleton.mp h
      rw [hkv] at hk
      exact hk rfl

/-- An entry of a dict assignment carrying the assigned key holds the
assigned value. -/
theorem pyInsert_mem_eq {κ α : Type} [DecidableEq κ] (m : List (κ × α)) (k : κ) (v : α)
    (kv : κ × α) : kv ∈ pyInsert m k v → kv.1 = k → kv.2 = v := by
  intro h hk
  unfold pyInsert at h
  by_cases hmem : k ∈ m.map Prod.fst
  · rw [if_pos hmem] at h
    rcases List.mem_map.mp h with ⟨p, hp, hpeq⟩
    by_cases hpk : p.1 = k
    · rw [← hpeq]
      simp [hpk]
    · exfalso
      rw [← hpeq] at hk
      simp [hpk] at hk
  · rw [if_neg hmem] at h
    rcases List.mem_append.mp h with h | h
    · exfalso
      exact hmem (by rw [← hk]; exact List.mem_map_of_mem _ h)
    · have hkv := List.mem_singleton.mp h
      rw [hkv]

/-- Every entry of the dict fold holds the last input value for its key,
unless its key never occurs in the input and the entry came unchanged from
the accumulator. -/
theorem pyDictFrom_lastVal {κ α : Type} [DecidableEq κ] :
    ∀ (l m : List (κ × α)) (kv : κ × α),
      kv ∈ List.foldl (fun m kv => pyInsert m kv.1 kv.2) m l →
      lastVal l kv.1 = some kv.2 ∨ (lastVal l kv.1 = none ∧ kv ∈ m) := by
  intro l
  induction l with
  | nil =>
    intro m kv h
    exact Or.inr ⟨rfl, by simpa using h⟩
  | cons p rest ih =>
    intro m kv h
    rw [List.foldl_cons] at h
    rcases ih _ kv h with h1 | ⟨h1, h2⟩
    · left
      simp [lastVal, h1]
    · by_cases hk : kv.1 = p.1
      · left
        have hv : kv.2 = p.2 := pyInsert_mem_eq m p.1 p.2 kv h2 hk
        simp [lastVal, h1, hk.symm, hv]
      · right
        have hne : ¬ p.1 = kv.1 := fun hh => hk hh.symm
        refine ⟨?_, pyInsert_mem_ne m p.1 p.2 kv h2 hk⟩
        simp [lastVal, h1, hne]

/-- Every entry of a Python dict holds the last input value for its key. -/
theorem pyDict_lastVal {κ α : Type} [DecidableEq κ] (l : List (κ × α)) :
    ∀ kv ∈ pyDict l, lastVal l kv.1 = some kv.2 := by
  intro kv hkv
  rw [pyDict_eq_foldl] at hkv
  rcases pyDictFrom_lastVal l [] kv hkv with h | ⟨h1, h2⟩
  · exact h
  · exact absurd h2 (List.not_mem_nil kv)

/-- In one normalized row record, every entry's value is `normVal` of the
cell at the last column position carrying that entry's key. -/
theorem rowLastVal : ∀ (cols : List String) (r0 : List Cell),
    ∀ kv ∈ (pyDict (cols.zip (r0.map fillna))).map normEntry,
    ∃ c : Cell, lastVal (cols.zip r0) kv.1 = some c ∧ kv.2 = normVal c := by
  intro cols r0 kv hkv
  rcases List.mem_map.mp hkv with ⟨kv0, hkv0, hkveq⟩
  have hlv : lastVal (cols.zip (r0.map fillna)) kv0.1 = some kv0.2 :=
    pyDict_lastVal _ kv0 hkv0
  rw [zipMapSnd, lastVal_map_snd] at hlv
  rcases Option.map_eq_some'.mp hlv with ⟨c, hc, hfc⟩
  refine ⟨c, ?_, ?_⟩
  · rw [← hkveq]
    exact hc
  · rw [← hkveq]
    simp only [normEntry, normVal, ← hfc]

/-- C9: in normalized output, every row value is `normVal` of some input
cell — the `fillna("")`-then-`str` display form, under which a `NaN` cell
becomes `""` and a value cell its display string, never `"nan"`, `"None"`,
or an absent key (every column label is a key of every row record). -/
theorem spec_c9 :
    (∀ df, (dataframe_to_rows df).2 =
      df.rows.map (fun r =>
        (pyDict ((flatten_columns df.columns).zip (r.map fillna))).map normEntry)) ∧
    (∀ (cols : List String) (r : List Cell),
      ∀ kv ∈ (pyDict (cols.zip (r.map fillna))).map normEntry, ∃ c ∈ r, kv.2 = normVal c) ∧
    normVal Cell.na = "" ∧
    (∀ s, normVal (Cell.val s) = s) ∧
    normVal Cell.na ≠ "nan" ∧
    normVal Cell.na ≠ "None" ∧
    (∀ (cols : List String) (r : List Cell), cols.length = r.length →
      ∀ k ∈ cols, k ∈ ((pyDict (cols.zip (r.map fillna))).map normEntry).map Prod.fst) := by
  refine ⟨?_, ?_, rfl, fun s => rfl, by decide, by decide, ?_⟩
  · intro df
    simp [dataframe_to_rows, List.map_map, Function.comp]
  · intro cols r kv hkv
    rcases List.mem_map.mp hkv with ⟨kv0, hkv0, hkveq⟩
    have hsnd : kv0.2 ∈ (pyDict (cols.zip (r.map fillna))).map Prod.snd :=
      List.mem_map_of_mem _ hkv0
    rw [pyDict_eq_foldl] at hsnd
    rcases pyDictFrom_snds (cols.zip (r.map fillna)) [] kv0.2 hsnd with h | h
    · simp at h
    · rcases List.mem_map.mp h with ⟨⟨k1, c1⟩, hpr, hpreq⟩
      have hc1 : c1 ∈ r.map fillna := (List.of_mem_zip hpr).2
      rcases List.mem_map.mp hc1 with ⟨c, hc, hceq⟩
      refine ⟨c, hc, ?_⟩
      have hkc : kv0.2 = fillna c := by
        rw [← hpreq]
        exact hceq.symm
      rw [← hkveq]
      simp only [normEntry, normVal, hkc]
  · intro cols r hlen k hk
    have hlenc : cols.length ≤ (r.map fillna).length := by
      rw [List.length_map]
      omega
    have hzip : (cols.zip (r.map fillna)).map Prod.fst = cols := List.map_fst_zip _ _ hlenc
    rw [normEntry_keys, pyDict_eq_foldl]
    have hk2 : k ∈ (cols.zip (r.map fillna)).map Prod.fst := by rw [hzip]; exact hk
    rcases List.mem_map.mp hk2 with ⟨kv, hkv, hkveq⟩
    rw [← hkveq]
    exact pyDictFrom_keys_complete (cols.zip (r.map fillna)) [] kv hkv

/-- C1 (amended): the normalizer keeps the flattened header as `columns`
(source order, no deduplication, one label per source column) and one
output row per input row; each row record's key sequence is exactly the
first-occurrence deduplication of `columns` (duplicate-free, a sublist of
`columns`, with the same key set), each record value is the normalized
cell of the last column position carrying that key, and the key sequence
equals `columns` exactly whenever the flattened labels are distinct. -/
theorem spec_c1_amended : ∀ df : DataFrame,
    (∀ r ∈ df.rows, r.length = colCount df.columns) →
    (dataframe_to_rows df).1 = flatten_columns df.columns ∧
    (flatten_columns df.columns).length = colCount df.columns ∧
    (dataframe_to_rows df).2.length = df.rows.length ∧
    (∀ r ∈ (dataframe_to_rows df).2,
      r.map Prod.fst = dedupFirst (flatten_columns df.columns)) ∧
    (∀ r ∈ (dataframe_to_rows df).2,
      (r.map Prod.fst).Nodup ∧ (r.map Prod.fst).Sublist (flatten_columns df.columns) ∧
      (∀ k, k ∈ r.map Prod.fst ↔ k ∈ flatten_columns df.columns)) ∧
    (∀ pr ∈ (dataframe_to_rows df).2.zip df.rows, ∀ kv ∈ pr.1,
      ∃ c : Cell, lastVal ((flatten_columns df.columns).zip pr.2) kv.1 = some c ∧
        kv.2 = normVal c) ∧
    ((flatten_columns df.columns).Nodup →
      ∀ r ∈ (dataframe_to_rows df).2, r.map Prod.fst = flatten_columns df.columns) := by
  intro df hrect
  have hrows : (dataframe_to_rows df).2 =
      df.rows.map (fun r =>
        (pyDict ((flatten_columns df.columns).zip (r.map fillna))).map normEntry) := by
    simp [dataframe_to_rows, List.map_map, Function.comp]
  have rowKeysEq : ∀ r0 : List Cell, r0.length = colCount df.columns →
      (((pyDict ((flatten_columns df.columns).zip (r0.map fillna))).map normEntry).map
        Prod.fst) = dedupFirst (flatten_columns df.columns) := by
    intro r0 hlen0
    have hlenc : (flatten_columns df.columns).length ≤ (r0.map fillna).length := by
      rw [List.length_map, flatten_columns_length]
      omega
    have hzip : ((flatten_columns df.columns).zip (r0.map fillna)).map Prod.fst =
        flatten_columns df.columns := List.map_fst_zip _ _ hlenc
    rw [normEntry_keys, pyDict_eq_foldl, pyDictFrom_keys_eq, List.map_nil, hzip]
    rfl
  have rowProp : ∀ r0 : List Cell, r0.length = colCount df.columns →
      ((((pyDict ((flatten_columns df.columns).zip (r0.map fillna))).map normEntry).map
          Prod.fst).Nodup ∧
        (((pyDict ((flatten_columns df.columns).zip (r0.map fillna))).map normEntry).map
          Prod.fst).Sublist (flatten_columns df.columns) ∧
        (∀ k, k ∈ ((pyDict ((flatten_columns df.columns).zip (r0.map fillna))).map
            normEntry).map Prod.fst ↔ k ∈ flatten_columns df.columns)) := by
    intro r0 hlen0
    have hlenc : (flatten_columns df.columns).length ≤ (r0.map fillna).length := by
      rw [List.length_map, flatten_columns_length]
      omega
    have hzip : ((flatten_columns df.columns).zip (r0.map fillna)).map Prod.fst =
        flatten_columns df.columns := List.map_fst_zip _ _ hlenc
    rw [normEntry_keys, pyDict_eq_foldl]
    refine ⟨?_, ?_, ?_⟩
    · exact pyDictFrom_keys_nodup _ [] (by simp)
    · obtain ⟨extra, heq, hsub⟩ :=
        pyDictFrom_keys_sublist ((flatten_columns df.columns).zip (r0.map fillna)) []
      rw [List.map_nil, List.nil_append] at heq
      rw [heq]
      rw [hzip] at hsub
      exact hsub
    · intro k
      constructor
      · intro hk
        rcases pyDictFrom_keys_sound ((flatten_columns df.columns).zip (r0.map fillna)) []
            k hk with h | h
        · simp at h
        · rw [hzip] at h
          exact h
      · intro hk
        have hk2 : k ∈ ((flatten_columns df.columns).zip (r0.map fillna)).map Prod.fst := by
          rw [hzip]
          exact hk
        rcases List.mem_map.mp hk2 with ⟨kv, hkv, hkveq⟩
        rw [← hkveq]
        exact pyDictFrom_keys_complete _ [] kv hkv
  have hkeyprops : ∀ r ∈ (dataframe_to_rows df).2,
      (r.map Prod.fst).Nodup ∧ (r.map Prod.fst).Sublist (flatten_columns df.columns) ∧
      (∀ k, k ∈ r.map Prod.fst ↔ k ∈ flatten_columns df.columns) := by
    intro r hr
    rw [hrows] at hr
    rcases List.mem_map.mp hr with ⟨r0, hr0, hreq⟩
    have hprop := rowProp r0 (hrect r0 hr0)
    rw [← hreq]
    exact hprop
  have hkeyeq : ∀ r ∈ (dataframe_to_rows df).2,
      r.map Prod.fst = dedupFirst (flatten_columns df.columns) := by
    intro r hr
    rw [hrows] at hr
    rcases List.mem_map.mp hr with ⟨r0, hr0, hreq⟩
    have hprop := rowKeysEq r0 (hrect r0 hr0)
    rw [← hreq]
    exact hprop
  have hvals : ∀ pr ∈ (dataframe_to_rows df).2.zip df.rows, ∀ kv ∈ pr.1,
      ∃ c : Cell, lastVal ((flatten_columns df.columns).zip pr.2) kv.1 = some c ∧
        kv.2 = normVal c := by
    intro pr hpr
    rw [hrows, zip_map_self] at hpr
    rcases List.mem_map.mp hpr with ⟨r0, hr0, hpreq⟩
    subst hpreq
    intro kv hkv
    exact rowLastVal (flatten_columns df.columns) r0 kv hkv
  refine ⟨rfl, flatten_columns_length _, by rw [hrows, List.length_map], hkeyeq, hkeyprops,
    hvals, ?_⟩
  intro hnd r hr
  obtain ⟨hnodup, hsub, hmemiff⟩ := hkeyprops r hr
  have hsubset : (flatten_columns df.columns) ⊆ r.map Prod.fst := fun k hk => (hmemiff k).mpr hk
  have hlen1 := (hnd.subperm hsubset).length_le
  have hlen2 := hsub.length_le
  exact hsub.eq_of_length (by omega)

/-- A table whose two flattened column labels coincide. -/
def dfDup : DataFrame := ⟨.single ["A", "A"], [[Cell.val "x", Cell.val "y"]]⟩

/-- Counterexample for C1 as stated: with the duplicated flattened header
`["A", "A"]`, the output columns keep both labels but the row record
collapses to the single entry `("A", "y")` (first position, last value),
so its key sequence is not the columns sequence. -/
theorem spec_c1_counterexample :
    (dataframe_to_rows dfDup).1 = ["A", "A"] ∧
    (dataframe_to_rows dfDup).2 = [[("A", "y")]] ∧
    ¬ ∀ r ∈ (dataframe_to_rows dfDup).2, r.map Prod.fst = (dataframe_to_rows dfDup).1 :=
  ⟨rfl, rfl, by decide⟩

/-- A table whose first and third flattened labels coincide. -/
def dfTri : DataFrame :=
  ⟨.single ["A", "B", "A"], [[Cell.val "x", Cell.val "y", Cell.val "z"]]⟩

/-- Witness for C1 (amended) on a table with a duplicated label: the
record keys are the first-occurrence deduplication `["A", "B"]` of
`["A", "B", "A"]` — not some other duplicate-free sublist — and the
collapsed key `"A"` holds `"z"`, the last duplicated column's value. -/
theorem spec_c1_witness :
    (∀ r ∈ dfTri.rows, r.length = colCount dfTri.columns) ∧
    (dataframe_to_rows dfTri).2 = [[("A", "z"), ("B", "y")]] ∧
    dedupFirst (flatten_columns dfTri.columns) = ["A", "B"] ∧
    ((dataframe_to_rows dfTri).1 = flatten_columns dfTri.columns ∧
      (flatten_columns dfTri.columns).length = colCount dfTri.columns ∧
      (dataframe_to_rows dfTri).2.length = dfTri.rows.length ∧
      (∀ r ∈ (dataframe_to_rows dfTri).2,
        r.map Prod.fst = dedupFirst (flatten_columns dfTri.columns)) ∧
      (∀ r ∈ (dataframe_to_rows dfTri).2,
        (r.map Prod.fst).Nodup ∧ (r.map Prod.fst).Sublist (flatten_columns dfTri.columns) ∧
        (∀ k, k ∈ r.map Prod.fst ↔ k ∈ flatten_columns dfTri.columns)) ∧
      (∀ pr ∈ (dataframe_to_rows dfTri).2.zip dfTri.rows, ∀ kv ∈ pr.1,
        ∃ c : Cell, lastVal ((flatten_columns dfTri.columns).zip pr.2) kv.1 = some c ∧
          kv.2 = normVal c) ∧
      ((flatten_columns dfTri.columns).Nodup →
        ∀ r ∈ (dataframe_to_rows dfTri).2, r.map Prod.fst = flatten_columns dfTri.columns)) :=
  ⟨by decide, rfl, rfl, spec_c1_amended dfTri (by decide)⟩

/-- Witness for C9 on a concrete one-column table with a missing cell:
the column label is a key of the normalized row, and the NaN cell's output
value is `normVal Cell.na = ""`. -/
theorem spec_c9_witness :
    ((["A"] : List String).length = ([Cell.na] : List Cell).length) ∧
    "A" ∈ ((pyDict ((["A"] : List String).zip ([Cell.na].map fillna))).map normEntry).map
      Prod.fst ∧
    ∃ c ∈ [Cell.na], (("A", "") : String × String).2 = normVal c :=
  ⟨rfl, spec_c9.2.2.2.2.2.2 ["A"] [Cell.na] rfl "A" (by decide),
   spec_c9.2.1 ["A"] [Cell.na] ("A", "") (by decide)⟩
